import Mathlib

/-!
Verification development for the q debug-logging package (src/q.go).

Modelling conventions:
* Byte strings are modelled as `List Char` (abbreviated `Str`); the display
  width of a piece of text is its character count.  ANSI color escape
  sequences occupy no display columns, so `colorize` (defined in a
  repository file outside src/) is the identity in this display-column
  model and is omitted.
* Wall-clock times and durations are modelled as natural numbers counting
  milliseconds; the zero value of `time.Time` is `0`.
* The Go `time.Timer` is modelled by its deadline: `some d` for a timer
  scheduled to fire at time `d`, `none` for a stopped timer.
  `Timer.Reset` returns `false` exactly when the timer had been stopped or
  had already fired, which at time `now` means the stored deadline is
  `≤ now`.
-/

namespace QSpec

/-- Text modelled as a list of characters. -/
abbrev Str := List Char

/-- Physical lines of a piece of text: split at every newline character.
Always returns at least one (possibly empty) line. -/
def splitLines : Str → List Str
  | [] => [[]]
  | c :: cs =>
    if c = '\n' then [] :: splitLines cs
    else (c :: (splitLines cs).headI) :: (splitLines cs).tail

/-- Modelled from the spec: `argWidth` (defined in a repository file outside
src/) returns the display width of a rendered argument, namely the length
of its longest visual line. -/
def argWidth (s : Str) : Nat :=
  ((splitLines s).map List.length).foldr max 0

/-- The Go expression `strings.Replace(arg, "\n", "\n"+indent, -1)` from
`logger.output` (src/q.go line 127): insert `indent` after every newline. -/
def indentNL (indent : Str) : Str → Str
  | [] => []
  | c :: cs =>
    if c = '\n' then '\n' :: (indent ++ indentNL indent cs)
    else c :: indentNL indent cs

/-- The constant `maxLineWidth` (src/q.go line 33). -/
def maxLineWidth : Nat := 80

/-- The loop state of `logger.output` (src/q.go lines 108-143): the buffer
written so far, the number of args printed on the current log line
(`lineArgs`), the running width of the current line (`lineWidth`) and the
padding written before the next arg. -/
structure OutSt where
  buf : Str
  lineArgs : Nat
  lineWidth : Nat
  padding : Str

/-- One iteration of the `for _, arg := range args` loop of `logger.output`
(src/q.go lines 121-140). -/
def outputStep (indent : Str) (timestampWidth : Nat) (st : OutSt) (arg : Str) : OutSt :=
  let w := argWidth arg
  let newWidth := st.lineWidth + w + st.padding.length
  let arg2 := indentNL indent arg
  if maxLineWidth < newWidth ∧ st.lineArgs ≠ 0 then
    { buf := st.buf ++ '\n' :: (indent ++ arg2), lineArgs := 1,
      lineWidth := timestampWidth + w, padding := [' '] }
  else
    { buf := st.buf ++ (st.padding ++ arg2), lineArgs := st.lineArgs + 1,
      lineWidth := newWidth, padding := [' '] }

/-- The text appended to the log buffer by `logger.output` (src/q.go lines
108-143) for a given (plain, uncolorized) timestamp and rendered argument
blobs: the timestamp, a padding space, the greedily wrapped blobs, and a
trailing newline. -/
def outputStr (timestamp : Str) (args : List Str) : Str :=
  let timestampWidth := timestamp.length + 1
  let indent : Str := List.replicate timestampWidth ' '
  let init : OutSt :=
    { buf := timestamp ++ [' '], lineArgs := 0, lineWidth := timestampWidth,
      padding := [] }
  (args.foldl (outputStep indent timestampWidth) init).buf ++ ['\n']

/-! Basic lemmas about `splitLines`. -/

theorem splitLines_nil : splitLines [] = [[]] := rfl

theorem splitLines_cons_nl (cs : Str) :
    splitLines ('\n' :: cs) = [] :: splitLines cs := by
  simp [splitLines]

theorem splitLines_cons_ne (c : Char) (cs : Str) (h : ¬ c = '\n') :
    splitLines (c :: cs) = (c :: (splitLines cs).headI) :: (splitLines cs).tail := by
  simp [splitLines, h]

theorem splitLines_ne_nil (s : Str) : splitLines s ≠ [] := by
  cases s with
  | nil => simp [splitLines]
  | cons c cs =>
    by_cases h : c = '\n'
    · subst h; simp [splitLines_cons_nl]
    · simp [splitLines_cons_ne c cs h]

theorem headI_cons_tail {α} [Inhabited α] (l : List α) (h : l ≠ []) :
    l.headI :: l.tail = l := by
  cases l with
  | nil => exact absurd rfl h
  | cons a t => rfl

/-- Nonempty lists decompose from the right. -/
theorem eq_concat_of_ne_nil {α} (l : List α) (h : l ≠ []) :
    ∃ l' a, l = l' ++ [a] := by
  induction l with
  | nil => exact absurd rfl h
  | cons x t ih =>
    cases t with
    | nil => exact ⟨[], x, rfl⟩
    | cons y u =>
      obtain ⟨l', a, hla⟩ := ih (by simp)
      exact ⟨x :: l', a, by simp [hla]⟩

/-- How `splitLines` distributes over concatenation, phrased with explicit
decompositions of both sides. -/
theorem splitLines_append {xs : Str} (ys : Str) {L : List Str} {cur c0 : Str}
    {cs : List Str} (hx : splitLines xs = L ++ [cur])
    (hy : splitLines ys = c0 :: cs) :
    splitLines (xs ++ ys) = L ++ (cur ++ c0) :: cs := by
  induction xs generalizing L cur with
  | nil =>
    rw [splitLines_nil] at hx
    cases L with
    | nil =>
      simp only [List.nil_append, List.cons.injEq] at hx
      obtain ⟨h1, -⟩ := hx
      subst h1
      simpa using hy
    | cons a L' =>
      exfalso
      simp only [List.cons_append, List.cons.injEq] at hx
      obtain ⟨-, h2⟩ := hx
      exact (List.append_ne_nil_of_right_ne_nil L' (by simp : [cur] ≠ [])) h2.symm
  | cons c cs' ih =>
    by_cases hc : c = '\n'
    · subst hc
      rw [splitLines_cons_nl] at hx
      cases L with
      | nil =>
        exfalso
        simp only [List.nil_append, List.cons.injEq] at hx
        exact splitLines_ne_nil cs' hx.2
      | cons a L' =>
        simp only [List.cons_append, List.cons.injEq] at hx
        obtain ⟨ha, hrest⟩ := hx
        subst ha
        rw [List.cons_append, splitLines_cons_nl, ih hrest, List.cons_append]
    · obtain ⟨l, ls, hS⟩ : ∃ l ls, splitLines cs' = l :: ls := by
        cases hS : splitLines cs' with
        | nil => exact absurd hS (splitLines_ne_nil cs')
        | cons l ls => exact ⟨l, ls, rfl⟩
      rw [splitLines_cons_ne c cs' hc, hS] at hx
      simp only [List.headI, List.tail_cons] at hx
      cases L with
      | nil =>
        simp only [List.nil_append, List.cons.injEq] at hx
        obtain ⟨hcur, hls⟩ := hx
        subst hls
        have ih' := @ih [] l (by simpa using hS)
        rw [List.cons_append, splitLines_cons_ne c _ hc, ih']
        simp [← hcur, List.append_assoc]
      | cons a L' =>
        simp only [List.cons_append, List.cons.injEq] at hx
        obtain ⟨ha, hls⟩ := hx
        have ih' := @ih (l :: L') cur (by rw [hS, hls]; rfl)
        rw [List.cons_append, splitLines_cons_ne c _ hc, ih']
        simp [← ha]

/-- A newline-free text is a single line. -/
theorem splitLines_nlFree {xs : Str} (h : '\n' ∉ xs) : splitLines xs = [xs] := by
  induction xs with
  | nil => rfl
  | cons c cs ih =>
    have hc : ¬ c = '\n' := fun hc => h (by simp [hc])
    rw [splitLines_cons_ne c cs hc, ih (fun hm => h (by simp [hm]))]
    rfl

/-- Prepending newline-free text extends the first line. -/
theorem splitLines_append_nlFree_left {xs : Str} (h : '\n' ∉ xs) (z : Str) :
    splitLines (xs ++ z) =
      (xs ++ (splitLines z).headI) :: (splitLines z).tail := by
  induction xs with
  | nil => simp [headI_cons_tail _ (splitLines_ne_nil z)]
  | cons c cs ih =>
    have hc : ¬ c = '\n' := fun hc => h (by simp [hc])
    rw [List.cons_append, splitLines_cons_ne c _ hc,
      ih (fun hm => h (by simp [hm]))]
    rfl

theorem indentNL_cons_nl (ind cs : Str) :
    indentNL ind ('\n' :: cs) = '\n' :: (ind ++ indentNL ind cs) := by
  simp [indentNL]

theorem indentNL_cons_ne (ind : Str) {c : Char} (cs : Str) (h : ¬ c = '\n') :
    indentNL ind (c :: cs) = c :: indentNL ind cs := by
  simp [indentNL, h]

/-- The lines of `indentNL indent a`: the lines of `a`, with `indent`
prepended to every line but the first. -/
theorem splitLines_indentNL {ind : Str} (hind : '\n' ∉ ind) (a : Str) :
    splitLines (indentNL ind a) =
      (splitLines a).headI :: ((splitLines a).tail.map (fun l => ind ++ l)) := by
  induction a with
  | nil => rfl
  | cons c cs ih =>
    by_cases hc : c = '\n'
    · subst hc
      rw [indentNL_cons_nl, splitLines_cons_nl,
        splitLines_append_nlFree_left hind _, ih, splitLines_cons_nl]
      simp only [List.headI, List.tail_cons]
      obtain ⟨l, ls, hS⟩ : ∃ l ls, splitLines cs = l :: ls := by
        cases hS : splitLines cs with
        | nil => exact absurd hS (splitLines_ne_nil cs)
        | cons l ls => exact ⟨l, ls, rfl⟩
      rw [hS]
      simp
    · rw [indentNL_cons_ne ind cs hc, splitLines_cons_ne c _ hc, ih,
        splitLines_cons_ne c cs hc]
      obtain ⟨l, ls, hS⟩ : ∃ l ls, splitLines cs = l :: ls := by
        cases hS : splitLines cs with
        | nil => exact absurd hS (splitLines_ne_nil cs)
        | cons l ls => exact ⟨l, ls, rfl⟩
      rw [hS]
      simp

/-- Every line of a text is at most as long as the text itself. -/
theorem length_le_of_mem_splitLines {s l : Str} (h : l ∈ splitLines s) :
    l.length ≤ s.length := by
  induction s generalizing l with
  | nil =>
    rw [splitLines_nil] at h
    have h1 := List.mem_singleton.mp h
    subst h1
    simp
  | cons c cs ih =>
    by_cases hc : c = '\n'
    · subst hc
      rw [splitLines_cons_nl] at h
      rcases List.mem_cons.mp h with h1 | h1
      · subst h1; simp
      · exact le_trans (ih h1) (by simp)
    · rw [splitLines_cons_ne c cs hc] at h
      obtain ⟨l', ls, hS⟩ : ∃ l' ls, splitLines cs = l' :: ls := by
        cases hS : splitLines cs with
        | nil => exact absurd hS (splitLines_ne_nil cs)
        | cons l' ls => exact ⟨l', ls, rfl⟩
      rw [hS] at h
      simp only [List.headI, List.tail_cons] at h
      rcases List.mem_cons.mp h with h1 | h1
      · subst h1
        have h2 : l'.length ≤ cs.length :=
          ih (by rw [hS]; exact List.mem_cons_self _ _)
        simp only [List.length_cons]
        omega
      · have h2 : l.length ≤ cs.length :=
          ih (by rw [hS]; exact List.mem_cons_of_mem _ h1)
        simp only [List.length_cons]
        omega

theorem le_foldr_max {x : Nat} : ∀ {l : List Nat}, x ∈ l → x ≤ l.foldr max 0 := by
  intro l
  induction l with
  | nil => intro h; cases h
  | cons a t ih =>
    intro h
    rcases List.mem_cons.mp h with h | h
    · subst h; exact le_max_left _ _
    · exact le_trans (ih h) (le_max_right _ _)

/-- Every visual line of a blob is at most `argWidth` wide. -/
theorem length_le_argWidth {a l : Str} (h : l ∈ splitLines a) :
    l.length ≤ argWidth a :=
  le_foldr_max (List.mem_map_of_mem List.length h)

theorem splitLines_eq_cons (s : Str) : ∃ l ls, splitLines s = l :: ls := by
  cases h : splitLines s with
  | nil => exact absurd h (splitLines_ne_nil s)
  | cons l ls => exact ⟨l, ls, rfl⟩

theorem headI_mem_splitLines (s : Str) : (splitLines s).headI ∈ splitLines s := by
  obtain ⟨l, ls, h⟩ := splitLines_eq_cons s
  rw [h]
  exact List.mem_cons_self _ _

/-- The physical lines of the buffer after one `logger.output` loop
iteration, given a right-decomposition of the lines before it. -/
theorem splitLines_outputStep_buf {ind : Str} (hind : '\n' ∉ ind)
    {st : OutSt} (hpad : '\n' ∉ st.padding) {L : List Str} {cur : Str}
    (hdec : splitLines st.buf = L ++ [cur]) (tsW : Nat) (a : Str) :
    splitLines (outputStep ind tsW st a).buf =
      if maxLineWidth < st.lineWidth + argWidth a + st.padding.length ∧
          st.lineArgs ≠ 0 then
        L ++ cur :: (ind ++ (splitLines a).headI) ::
          ((splitLines a).tail.map (fun l => ind ++ l))
      else
        L ++ (cur ++ st.padding ++ (splitLines a).headI) ::
          ((splitLines a).tail.map (fun l => ind ++ l)) := by
  have hSa := splitLines_indentNL hind a
  by_cases hbr : maxLineWidth < st.lineWidth + argWidth a + st.padding.length ∧
      st.lineArgs ≠ 0
  · rw [if_pos hbr]
    have hstep : (outputStep ind tsW st a).buf =
        st.buf ++ '\n' :: (ind ++ indentNL ind a) := by
      simp only [outputStep]
      rw [if_pos hbr]
    rw [hstep]
    have hy : splitLines ('\n' :: (ind ++ indentNL ind a)) =
        [] :: (ind ++ (splitLines a).headI) ::
          ((splitLines a).tail.map (fun l => ind ++ l)) := by
      rw [splitLines_cons_nl, splitLines_append_nlFree_left hind _, hSa]
      rfl
    rw [splitLines_append _ hdec hy]
    simp
  · rw [if_neg hbr]
    have hstep : (outputStep ind tsW st a).buf =
        st.buf ++ (st.padding ++ indentNL ind a) := by
      simp only [outputStep]
      rw [if_neg hbr]
    rw [hstep]
    have hy : splitLines (st.padding ++ indentNL ind a) =
        (st.padding ++ (splitLines a).headI) ::
          ((splitLines a).tail.map (fun l => ind ++ l)) := by
      rw [splitLines_append_nlFree_left hpad _, hSa]
      rfl
    rw [splitLines_append _ hdec hy]
    simp [List.append_assoc]

/-- A line is acceptable when it fits in `maxLineWidth` columns, or when a
single blob together with the indent already exceeds `maxLineWidth` and the
line is no wider than indent plus that blob. -/
def lineOK (tsW : Nat) (args : List Str) (line : Str) : Prop :=
  line.length ≤ maxLineWidth ∨
    ∃ a ∈ args, maxLineWidth < tsW + argWidth a ∧
      line.length ≤ tsW + argWidth a

theorem lineOK_of_le {tsW : Nat} {args : List Str} {a : Str} (ha : a ∈ args)
    {line : Str} (h : line.length ≤ tsW + argWidth a) :
    lineOK tsW args line := by
  by_cases h80 : tsW + argWidth a ≤ maxLineWidth
  · exact Or.inl (le_trans h h80)
  · exact Or.inr ⟨a, ha, lt_of_not_le h80, h⟩

/-- Loop invariant of `logger.output` for the width bound: every completed
line is acceptable, the current (last) line is no longer than the tracked
`lineWidth`, `lineWidth` is at least the indent width, and before the first
arg of a line the width is exactly the indent width with no padding. -/
def InvW (tsW : Nat) (args : List Str) (st : OutSt) : Prop :=
  (∃ L cur, splitLines st.buf = L ++ [cur] ∧
    (∀ l ∈ L, lineOK tsW args l) ∧ lineOK tsW args cur ∧
    cur.length ≤ st.lineWidth) ∧
  tsW ≤ st.lineWidth ∧
  (st.lineArgs = 0 → st.lineWidth = tsW ∧ st.padding = []) ∧
  (st.padding = [] ∨ st.padding = [' '])

theorem invW_step {ind : Str} {tsW : Nat} {args : List Str}
    (hindlen : ind.length = tsW) (hind : '\n' ∉ ind)
    {a : Str} (ha : a ∈ args) {st : OutSt} (h : InvW tsW args st) :
    InvW tsW args (outputStep ind tsW st a) := by
  obtain ⟨⟨L, cur, hdec, hL, hcur, hcurlen⟩, hge, hfirst, hpadshape⟩ := h
  have hpadnl : '\n' ∉ st.padding := by
    rcases hpadshape with h1 | h1 <;> rw [h1] <;> intro hm <;> simp at hm
  have hbufshape := splitLines_outputStep_buf hind hpadnl hdec tsW a
  have hh0 : (splitLines a).headI.length ≤ argWidth a :=
    length_le_argWidth (headI_mem_splitLines a)
  have hlenM : ∀ l ∈ (splitLines a).tail.map (fun l => ind ++ l),
      l.length ≤ tsW + argWidth a := by
    intro l hl
    obtain ⟨l0, hl0, rfl⟩ := List.mem_map.mp hl
    have := length_le_argWidth (List.mem_of_mem_tail hl0)
    simp only [List.length_append, hindlen]
    omega
  have hokM : ∀ l ∈ (splitLines a).tail.map (fun l => ind ++ l),
      lineOK tsW args l := fun l hl => lineOK_of_le ha (hlenM l hl)
  by_cases hbr : maxLineWidth < st.lineWidth + argWidth a + st.padding.length ∧
      st.lineArgs ≠ 0
  · rw [if_pos hbr] at hbufshape
    have hstep : outputStep ind tsW st a =
        { buf := st.buf ++ '\n' :: (ind ++ indentNL ind a), lineArgs := 1,
          lineWidth := tsW + argWidth a, padding := [' '] } := by
      simp only [outputStep]
      rw [if_pos hbr]
    rw [hstep]
    rw [hstep] at hbufshape
    have hfirstnew : (ind ++ (splitLines a).headI).length ≤ tsW + argWidth a := by
      simp only [List.length_append, hindlen]
      omega
    refine ⟨?_, by simp, by intro hz; exact absurd hz (by simp), Or.inr rfl⟩
    rcases List.eq_nil_or_concat ((splitLines a).tail.map (fun l => ind ++ l))
        with hM | ⟨M', lastl, hM⟩
    · refine ⟨L ++ [cur], ind ++ (splitLines a).headI, ?_, ?_, ?_, ?_⟩
      · rw [hbufshape, hM]
        simp
      · intro l hl
        rcases List.mem_append.mp hl with h1 | h1
        · exact hL l h1
        · rw [List.mem_singleton.mp h1]; exact hcur
      · exact lineOK_of_le ha hfirstnew
      · exact hfirstnew
    · rw [List.concat_eq_append] at hM
      refine ⟨L ++ cur :: (ind ++ (splitLines a).headI) :: M', lastl, ?_, ?_, ?_, ?_⟩
      · rw [hbufshape, hM]
        simp
      · intro l hl
        rcases List.mem_append.mp hl with h1 | h1
        · exact hL l h1
        · rcases List.mem_cons.mp h1 with h2 | h2
          · rw [h2]; exact hcur
          · rcases List.mem_cons.mp h2 with h3 | h3
            · rw [h3]; exact lineOK_of_le ha hfirstnew
            · exact hokM l (by rw [hM]; exact List.mem_append.mpr (Or.inl h3))
      · exact hokM lastl (by rw [hM]; simp)
      · exact hlenM lastl (by rw [hM]; simp)
  · rw [if_neg hbr] at hbufshape
    have hstep : outputStep ind tsW st a =
        { buf := st.buf ++ (st.padding ++ indentNL ind a),
          lineArgs := st.lineArgs + 1,
          lineWidth := st.lineWidth + argWidth a + st.padding.length,
          padding := [' '] } := by
      simp only [outputStep]
      rw [if_neg hbr]
    rw [hstep]
    rw [hstep] at hbufshape
    have hmerged : (cur ++ st.padding ++ (splitLines a).headI).length ≤
        st.lineWidth + argWidth a + st.padding.length := by
      simp only [List.length_append]
      omega
    have hokmerged : lineOK tsW args (cur ++ st.padding ++ (splitLines a).headI) := by
      rcases not_and_or.mp hbr with hw | hz
      · left
        have hw' : st.lineWidth + argWidth a + st.padding.length ≤ maxLineWidth :=
          le_of_not_lt hw
        omega
      · obtain ⟨hlw, hpd⟩ := hfirst (not_not.mp hz)
        apply lineOK_of_le ha
        rw [hpd]
        simp only [List.length_append, List.length_nil]
        omega
    have hokM' : ∀ l ∈ (splitLines a).tail.map (fun l => ind ++ l),
        lineOK tsW args l := hokM
    refine ⟨?_, by simp; omega, by intro hz; exact absurd hz (by simp),
      Or.inr rfl⟩
    rcases List.eq_nil_or_concat ((splitLines a).tail.map (fun l => ind ++ l))
        with hM | ⟨M', lastl, hM⟩
    · refine ⟨L, cur ++ st.padding ++ (splitLines a).headI, ?_, hL, hokmerged, hmerged⟩
      rw [hbufshape, hM]
    · rw [List.concat_eq_append] at hM
      refine ⟨L ++ (cur ++ st.padding ++ (splitLines a).headI) :: M', lastl,
        ?_, ?_, ?_, ?_⟩
      · rw [hbufshape, hM]
        simp
      · intro l hl
        rcases List.mem_append.mp hl with h1 | h1
        · exact hL l h1
        · rcases List.mem_cons.mp h1 with h2 | h2
          · rw [h2]; exact hokmerged
          · exact hokM' l (by rw [hM]; exact List.mem_append.mpr (Or.inl h2))
      · exact hokM' lastl (by rw [hM]; simp)
      · show lastl.length ≤ st.lineWidth + argWidth a + st.padding.length
        have h5 := hlenM lastl (by rw [hM]; simp)
        omega

theorem invW_foldl {ind : Str} {tsW : Nat} {args : List Str}
    (hindlen : ind.length = tsW) (hind : '\n' ∉ ind) :
    ∀ (rest : List Str), (∀ a ∈ rest, a ∈ args) → ∀ st : OutSt,
      InvW tsW args st →
      InvW tsW args (rest.foldl (outputStep ind tsW) st) := by
  intro rest
  induction rest with
  | nil => intro _ st h; exact h
  | cons a rest ih =>
    intro hsub st h
    exact ih (fun x hx => hsub x (List.mem_cons_of_mem _ hx))
      _ (invW_step hindlen hind (hsub a (List.mem_cons_self _ _)) h)

theorem outputStep_padding (ind : Str) (tsW : Nat) (st : OutSt) (a : Str) :
    (outputStep ind tsW st a).padding = [' '] := by
  simp only [outputStep]
  split <;> rfl

theorem tail_append_cons_subset {α} (L : List α) (y : α) (M : List α) :
    ∀ x ∈ (L ++ y :: M).tail, x ∈ (L ++ [y]).tail ∨ x ∈ M := by
  cases L with
  | nil =>
    intro x hx
    right
    simpa using hx
  | cons b L' =>
    intro x hx
    simp only [List.cons_append, List.tail_cons] at hx ⊢
    rcases List.mem_append.mp hx with h1 | h1
    · exact Or.inl (List.mem_append.mpr (Or.inl h1))
    · rcases List.mem_cons.mp h1 with h2 | h2
      · exact Or.inl (List.mem_append.mpr (Or.inr (by rw [h2]; simp)))
      · exact Or.inr h2

/-- Loop invariant of `logger.output` for alignment: every physical line of
the buffer except the first starts with the indent string. -/
def InvP (ind : Str) (st : OutSt) : Prop :=
  (∀ line ∈ (splitLines st.buf).tail, ind <+: line) ∧
  (st.padding = [] ∨ st.padding = [' '])

theorem invP_step {ind : Str} (hind : '\n' ∉ ind) (tsW : Nat) {st : OutSt}
    (a : Str) (h : InvP ind st) : InvP ind (outputStep ind tsW st a) := by
  obtain ⟨htail, hpadshape⟩ := h
  have hpadnl : '\n' ∉ st.padding := by
    rcases hpadshape with h1 | h1 <;> rw [h1] <;> intro hm <;> simp at hm
  obtain ⟨L, cur, hdec⟩ := eq_concat_of_ne_nil _ (splitLines_ne_nil st.buf)
  have htail' : ∀ line ∈ (L ++ [cur]).tail, ind <+: line := by
    rw [hdec] at htail
    exact htail
  have hbufshape := splitLines_outputStep_buf hind hpadnl hdec tsW a
  refine ⟨?_, Or.inr (outputStep_padding ind tsW st a)⟩
  have hMpref : ∀ x ∈ (splitLines a).tail.map (fun l => ind ++ l), ind <+: x := by
    intro x hx
    obtain ⟨l0, -, rfl⟩ := List.mem_map.mp hx
    exact List.prefix_append ind l0
  by_cases hbr : maxLineWidth < st.lineWidth + argWidth a + st.padding.length ∧
      st.lineArgs ≠ 0
  · rw [if_pos hbr] at hbufshape
    intro x hx
    rw [hbufshape] at hx
    rcases tail_append_cons_subset L cur _ x hx with h1 | h1
    · exact htail' x h1
    · rcases List.mem_cons.mp h1 with h2 | h2
      · rw [h2]; exact List.prefix_append ind _
      · exact hMpref x h2
  · rw [if_neg hbr] at hbufshape
    intro x hx
    rw [hbufshape] at hx
    rcases tail_append_cons_subset L _ _ x hx with h1 | h1
    · cases L with
      | nil => simp at h1
      | cons b L' =>
        simp only [List.cons_append, List.tail_cons] at h1
        rcases List.mem_append.mp h1 with h2 | h2
        · apply htail' x
          simp only [List.cons_append, List.tail_cons]
          exact List.mem_append.mpr (Or.inl h2)
        · have hxeq := List.mem_singleton.mp h2
          have hpc : ind <+: cur := by
            apply htail' cur
            simp only [List.cons_append, List.tail_cons]
            simp
          rw [hxeq, List.append_assoc]
          exact hpc.trans (List.prefix_append cur _)
    · exact hMpref x h1

theorem invP_foldl {ind : Str} (hind : '\n' ∉ ind) (tsW : Nat) :
    ∀ (rest : List Str) (st : OutSt), InvP ind st →
      InvP ind (rest.foldl (outputStep ind tsW) st) := by
  intro rest
  induction rest with
  | nil => intro st h; exact h
  | cons a rest ih => intro st h; exact ih _ (invP_step hind tsW a h)

theorem dropLast_append_singleton {α} (l : List α) (a : α) :
    (l ++ [a]).dropLast = l := by
  induction l with
  | nil => rfl
  | cons x l ih =>
    rw [List.cons_append]
    have hne : l ++ [a] ≠ [] := by simp
    cases hcons : l ++ [a] with
    | nil => exact absurd hcons hne
    | cons y t =>
      have h2 : (x :: y :: t).dropLast = x :: (y :: t).dropLast := rfl
      rw [h2, ← hcons, ih]

theorem getLast?_append_singleton {α} (l : List α) (a : α) :
    (l ++ [a]).getLast? = some a := by
  rw [List.getLast?_append_cons]
  rfl

/-- Claim C4 (amended): for a newline-free-width-bounded timestamp, every
physical line of the text composed by `logger.output` either fits in
`maxLineWidth` (80) display columns, or is a line carrying a single blob
whose width plus the indent width already exceeds 80, in which case the
line is no wider than indent width plus that blob's width (the first blob
on a line is never deferred). -/
theorem line_width_bound (ts : Str) (args : List Str)
    (h : ts.length + 1 ≤ maxLineWidth) :
    ∀ line ∈ splitLines (outputStr ts args), lineOK (ts.length + 1) args line := by
  have hindlen : (List.replicate (ts.length + 1) ' ' : Str).length = ts.length + 1 :=
    List.length_replicate _ _
  have hind : '\n' ∉ (List.replicate (ts.length + 1) ' ' : Str) := by
    intro hm
    exact absurd (List.eq_of_mem_replicate hm) (by decide)
  have hinit : InvW (ts.length + 1) args
      { buf := ts ++ [' '], lineArgs := 0, lineWidth := ts.length + 1,
        padding := [] } := by
    obtain ⟨L0, cur0, hdec0⟩ :=
      eq_concat_of_ne_nil _ (splitLines_ne_nil (ts ++ [' ']))
    have hall : ∀ l ∈ splitLines (ts ++ [' ']), l.length ≤ ts.length + 1 := by
      intro l hl
      have h1 := length_le_of_mem_splitLines hl
      simpa using h1
    refine ⟨⟨L0, cur0, hdec0, ?_, ?_, ?_⟩, le_refl _, fun _ => ⟨rfl, rfl⟩,
      Or.inl rfl⟩
    · intro l hl
      exact Or.inl (le_trans
        (hall l (by rw [hdec0]; exact List.mem_append.mpr (Or.inl hl))) h)
    · exact Or.inl (le_trans (hall cur0 (by rw [hdec0]; simp)) h)
    · exact hall cur0 (by rw [hdec0]; simp)
  have hfold := invW_foldl hindlen hind args (fun a hx => hx) _ hinit
  obtain ⟨⟨L, cur, hdec, hL, hcur, -⟩, -, -, -⟩ := hfold
  intro line hline
  have hnl : splitLines (['\n'] : Str) = [([] : Str), []] := by
    rw [splitLines_cons_nl, splitLines_nil]
  have houtput : outputStr ts args =
      (args.foldl
        (outputStep (List.replicate (ts.length + 1) ' ') (ts.length + 1))
        { buf := ts ++ [' '], lineArgs := 0, lineWidth := ts.length + 1,
          padding := [] }).buf ++ ['\n'] := rfl
  rw [houtput, splitLines_append _ hdec hnl] at hline
  simp only [List.append_nil] at hline
  rcases List.mem_append.mp hline with h1 | h1
  · exact hL line h1
  · rcases List.mem_cons.mp h1 with h2 | h2
    · rw [h2]; exact hcur
    · rw [List.mem_singleton.mp h2]
      exact Or.inl (Nat.zero_le _)

/-- Witness for `line_width_bound` at the concrete timestamp `0.000s` and
two one-character blobs. -/
theorem line_width_bound_witness :
    ("0.000s".toList.length + 1 ≤ maxLineWidth) ∧
      ∀ line ∈ splitLines (outputStr ("0.000s".toList) [['a'], ['b']]),
        lineOK ("0.000s".toList.length + 1) [['a'], ['b']] line :=
  ⟨by decide, line_width_bound ("0.000s".toList) [['a'], ['b']] (by decide)⟩

/-- Claim C4 counterexample: with timestamp `0.000s` and a single blob of
width 75 — which does not exceed 80 columns by itself — the composed text
contains a physical line of 82 display columns, because the timestamp and
padding count towards the line. So "no line exceeds 80 columns except when
a single blob alone exceeds that width" is false as stated. -/
theorem line_width_cex :
    ∃ line ∈ splitLines (outputStr ("0.000s".toList) [List.replicate 75 'x']),
      maxLineWidth < line.length ∧
        ∀ a ∈ [List.replicate 75 'x'], argWidth a ≤ maxLineWidth := by
  decide

/-- Claim C8 (confirmed): the indent string used by `logger.output` is as
wide as the plain timestamp plus one padding space; the composed block ends
with a newline; and every physical line after the first — produced either
by wrapping or by a newline embedded in a blob — starts with the indent. -/
theorem indent_alignment (ts : Str) (args : List Str) (h : '\n' ∉ ts) :
    (List.replicate (ts.length + 1) ' ' : Str).length = ts.length + 1 ∧
    (outputStr ts args).getLast? = some '\n' ∧
    ∀ line ∈ (splitLines ((outputStr ts args).dropLast)).tail,
      List.replicate (ts.length + 1) ' ' <+: line := by
  have hind : '\n' ∉ (List.replicate (ts.length + 1) ' ' : Str) := by
    intro hm
    exact absurd (List.eq_of_mem_replicate hm) (by decide)
  have houtput : outputStr ts args =
      (args.foldl
        (outputStep (List.replicate (ts.length + 1) ' ') (ts.length + 1))
        { buf := ts ++ [' '], lineArgs := 0, lineWidth := ts.length + 1,
          padding := [] }).buf ++ ['\n'] := rfl
  refine ⟨List.length_replicate _ _, ?_, ?_⟩
  · rw [houtput, getLast?_append_singleton]
  · have hinit : InvP (List.replicate (ts.length + 1) ' ')
        { buf := ts ++ [' '], lineArgs := 0, lineWidth := ts.length + 1,
          padding := [] } := by
      constructor
      · intro line hline
        have hnl2 : '\n' ∉ ts ++ [' '] := by
          intro hm
          rcases List.mem_append.mp hm with hm1 | hm1
          · exact h hm1
          · exact absurd (List.mem_singleton.mp hm1) (by decide)
        rw [splitLines_nlFree hnl2] at hline
        simp at hline
      · exact Or.inl rfl
    have hfold := invP_foldl hind (ts.length + 1) args _ hinit
    obtain ⟨htail, -⟩ := hfold
    rw [houtput, dropLast_append_singleton]
    exact htail

/-- Witness for `indent_alignment` at the concrete timestamp `0.000s` and a
blob with an embedded newline. -/
theorem indent_alignment_witness :
    ('\n' ∉ "0.000s".toList) ∧
      ((List.replicate ("0.000s".toList.length + 1) ' ' : Str).length =
          "0.000s".toList.length + 1 ∧
        (outputStr ("0.000s".toList) [['a', '\n', 'b']]).getLast? = some '\n' ∧
        ∀ line ∈ (splitLines
            ((outputStr ("0.000s".toList) [['a', '\n', 'b']]).dropLast)).tail,
          List.replicate ("0.000s".toList.length + 1) ' ' <+: line) :=
  ⟨by decide, indent_alignment ("0.000s".toList) [['a', '\n', 'b']] (by decide)⟩

/-! The session tracker: `logger`, `init`, `resetTimer`, `header`, `flush`
and the entry point `Q` (src/q.go lines 41-178). -/

def pad2 (n : Nat) : String :=
  if n < 10 then ("0" ++ toString n) else toString n

/-- Wall-clock formatting `15:04:05` (UTC) used by `logger.header`
(src/q.go line 78); times are epoch milliseconds. -/
def hhmmss (now : Nat) : String :=
  let secs := now / 1000
  pad2 (secs / 3600 % 24) ++ ":" ++ pad2 (secs % 3600 / 60) ++ ":" ++
    pad2 (secs % 60)

def pad3 (n : Nat) : String :=
  if n < 10 then ("00" ++ toString n)
  else if n < 100 then ("0" ++ toString n)
  else toString n

/-- The timestamp `fmt.Sprintf("%.3fs", time.Since(l.start).Seconds())` of
`logger.output` (src/q.go line 109), at millisecond resolution. -/
def fmtElapsed (ms : Nat) : String :=
  toString (ms / 1000) ++ "." ++ pad3 (ms % 1000) ++ "s"

/-- The `logger` struct (src/q.go lines 41-48).  The mutex is not modelled
(calls are modelled as already serialized, see the concurrency note); the
`time.Timer` is modelled by its optional deadline. -/
structure Logger where
  buf : Str
  start : Nat
  timerDeadline : Option Nat
  lastFile : String
  lastFunc : String

/-- The standard logger built by `init` (src/q.go lines 51-61): empty
buffer, zero `start`, a stopped timer, empty `lastFile`/`lastFunc`. -/
def initLogger : Logger :=
  { buf := [], start := 0, timerDeadline := none, lastFile := "",
    lastFunc := "" }

/-- Whether the logger's timer had expired (or was stopped) at time `now`:
this is the negation of what Go's `Timer.Reset` returns. -/
def deadlineElapsed (now : Nat) (l : Logger) : Bool :=
  match l.timerDeadline with
  | none => true
  | some d => d ≤ now

/-- `logger.resetTimer` (src/q.go lines 84-90): reset the timer to fire
`d` after `now`, report whether it had expired, and reset the elapsed-time
baseline `start` to `now` exactly when it had. -/
def resetTimer (d now : Nat) (l : Logger) : Bool × Logger :=
  let expired := deadlineElapsed now l
  let l1 := { l with timerDeadline := some (now + d) }
  if expired then (expired, { l1 with start := now }) else (expired, l1)

/-- The header text `[15:04:05 file:line funcName]` (src/q.go line 79). -/
def mkHeader (now : Nat) (file : String) (line : Nat) (funcName : String) :
    String :=
  "[" ++ hhmmss now ++ " " ++ file ++ ":" ++ toString line ++ " " ++
    funcName ++ "]"

/-- `logger.header` (src/q.go lines 66-80): reset the 2s timer; if it had
not expired and the caller's function and file are unchanged, emit no
header; otherwise record the caller and emit a formatted header. -/
def header (funcName file : String) (line now : Nat) (l : Logger) :
    String × Logger :=
  let r := resetTimer 2000 now l
  if r.1 = false ∧ funcName = r.2.lastFunc ∧ file = r.2.lastFile then
    ("", r.2)
  else
    (mkHeader now file line funcName,
      { r.2 with lastFunc := funcName, lastFile := file })

/-- `logger.output` at the logger level (src/q.go lines 108-143): append
the composed block, timestamped with the elapsed time since `start`, to
the buffer. -/
def output (now : Nat) (args : List Str) (l : Logger) : Logger :=
  { l with buf := l.buf ++ outputStr ((fmtElapsed (now - l.start)).toList) args }

/-- Result of one flush: whether an error was returned and which bytes
were appended to the log file. -/
structure FlushResult where
  err : Bool
  written : Str

/-- `logger.flush` (src/q.go lines 93-104).  `openOk` models whether
`os.OpenFile` succeeds and `writeOk` whether the copy to the file
succeeds.  On open failure the function returns the error before touching
the buffer; otherwise `io.Copy` drains the buffer and `buf.Reset` clears
it, whether or not the write reported an error. -/
def flush (openOk writeOk : Bool) (l : Logger) : FlushResult × Logger :=
  if openOk then
    ({ err := !writeOk, written := l.buf }, { l with buf := [] })
  else
    ({ err := true, written := [] }, l)

/-- Caller information as produced by `getCallerInfo` (defined in a
repository file outside src/): calling function, file and line. -/
structure CallerInfo where
  funcName : String
  file : String
  line : Nat

/-- Modelled from the spec: `prependArgName` (defined in a repository file
outside src/) converts arguments to `name=value` blobs; a missing or empty
name leaves the bare value. -/
def prependArgName : List Str → List Str → List Str
  | n :: ns, a :: rest =>
    (if n = [] then a else n ++ '=' :: a) :: prependArgName ns rest
  | _, rest => rest

/-- The blobs actually printed by `Q`: bare values when argument-name
recovery failed, `name=value` blobs otherwise. -/
def argsOf (names : Option (List Str)) (args : List Str) : List Str :=
  match names with
  | none => args
  | some ns => prependArgName ns args

/-- The entry point `Q` (src/q.go lines 146-178), for one serialized call.
`args` are the pre-rendered values (`formatArgs` lives outside src/),
`callerInfo` is `none` when `getCallerInfo` fails, `names` is `none` when
`argNames` fails, and `openOk`/`writeOk` model the deferred flush's file
operations.  Returns the flush result and the logger state after the
call. -/
def Q (now : Nat) (callerInfo : Option CallerInfo) (names : Option (List Str))
    (args : List Str) (openOk writeOk : Bool) (l : Logger) :
    FlushResult × Logger :=
  match callerInfo with
  | none => flush openOk writeOk (output now args l)
  | some ci =>
    let h := header ci.funcName ci.file ci.line now l
    let l1 := if h.1 = "" then h.2
      else { h.2 with buf := h.2.buf ++ '\n' :: h.1.toList ++ ['\n'] }
    match names with
    | none => flush openOk writeOk (output now args l1)
    | some ns => flush openOk writeOk (output now (prependArgName ns args) l1)

/-! Field lemmas for the session-tracker operations. -/

theorem resetTimer_fst (d now : Nat) (l : Logger) :
    (resetTimer d now l).1 = deadlineElapsed now l := by
  simp only [resetTimer]
  split <;> rfl

theorem resetTimer_snd_start (d now : Nat) (l : Logger) :
    (resetTimer d now l).2.start =
      (if deadlineElapsed now l then now else l.start) := by
  simp only [resetTimer]
  by_cases h : deadlineElapsed now l = true <;> simp [h]

theorem resetTimer_snd_timerDeadline (d now : Nat) (l : Logger) :
    (resetTimer d now l).2.timerDeadline = some (now + d) := by
  simp only [resetTimer]
  split <;> rfl

theorem resetTimer_snd_lastFunc (d now : Nat) (l : Logger) :
    (resetTimer d now l).2.lastFunc = l.lastFunc := by
  simp only [resetTimer]
  split <;> rfl

theorem resetTimer_snd_lastFile (d now : Nat) (l : Logger) :
    (resetTimer d now l).2.lastFile = l.lastFile := by
  simp only [resetTimer]
  split <;> rfl

theorem resetTimer_snd_buf (d now : Nat) (l : Logger) :
    (resetTimer d now l).2.buf = l.buf := by
  simp only [resetTimer]
  split <;> rfl

theorem mkHeader_ne_empty (now : Nat) (file : String) (ln : Nat)
    (fn : String) : mkHeader now file ln fn ≠ "" := by
  intro h
  have h3 := congrArg String.length h
  rw [mkHeader] at h3
  simp only [String.length_append] at h3
  have e1 : "[".length = 1 := rfl
  have e2 : "".length = 0 := rfl
  omega

theorem header_fst (fn file : String) (ln now : Nat) (l : Logger) :
    (header fn file ln now l).1 =
      if deadlineElapsed now l = false ∧ fn = l.lastFunc ∧ file = l.lastFile
      then ("") else mkHeader now file ln fn := by
  simp only [header, resetTimer_fst, resetTimer_snd_lastFunc,
    resetTimer_snd_lastFile]
  split <;> rfl

theorem header_snd_start (fn file : String) (ln now : Nat) (l : Logger) :
    (header fn file ln now l).2.start =
      (if deadlineElapsed now l then now else l.start) := by
  have h1 : (header fn file ln now l).2.start =
      (resetTimer 2000 now l).2.start := by
    simp only [header]
    split <;> rfl
  rw [h1, resetTimer_snd_start]

theorem header_snd_timerDeadline (fn file : String) (ln now : Nat)
    (l : Logger) :
    (header fn file ln now l).2.timerDeadline = some (now + 2000) := by
  have h1 : (header fn file ln now l).2.timerDeadline =
      (resetTimer 2000 now l).2.timerDeadline := by
    simp only [header]
    split <;> rfl
  rw [h1, resetTimer_snd_timerDeadline]

theorem header_snd_buf (fn file : String) (ln now : Nat) (l : Logger) :
    (header fn file ln now l).2.buf = l.buf := by
  have h1 : (header fn file ln now l).2.buf = (resetTimer 2000 now l).2.buf := by
    simp only [header]
    split <;> rfl
  rw [h1, resetTimer_snd_buf]

/-- Header emission condition: a header is returned exactly when the
previous deadline had elapsed or the caller's function or file changed. -/
theorem header_ne_empty_iff (fn file : String) (ln now : Nat) (l : Logger) :
    (header fn file ln now l).1 ≠ "" ↔
      (deadlineElapsed now l = true ∨ fn ≠ l.lastFunc ∨ file ≠ l.lastFile) := by
  rw [header_fst]
  by_cases hc : deadlineElapsed now l = false ∧ fn = l.lastFunc ∧
      file = l.lastFile
  · rw [if_pos hc]
    simp only [ne_eq, not_true_eq_false, false_iff]
    intro hd
    rcases hd with hd | hd | hd
    · rw [hc.1] at hd; exact Bool.false_ne_true hd
    · exact hd hc.2.1
    · exact hd hc.2.2
  · rw [if_neg hc]
    have hne := mkHeader_ne_empty now file ln fn
    simp only [hne, ne_eq, not_false_eq_true, true_iff]
    rcases Bool.eq_false_or_eq_true (deadlineElapsed now l) with hb | hb
    · exact Or.inl hb
    · by_cases h5 : fn = l.lastFunc
      · by_cases h6 : file = l.lastFile
        · exact absurd ⟨hb, h5, h6⟩ hc
        · exact Or.inr (Or.inr h6)
      · exact Or.inr (Or.inl h5)

theorem header_empty_not_expired (fn file : String) (ln now : Nat)
    (l : Logger) (h : (header fn file ln now l).1 = "") :
    deadlineElapsed now l = false := by
  rcases Bool.eq_false_or_eq_true (deadlineElapsed now l) with hb | hb
  · exact absurd h ((header_ne_empty_iff fn file ln now l).mpr (Or.inl hb))
  · exact hb

theorem output_start (now : Nat) (args : List Str) (l : Logger) :
    (output now args l).start = l.start := rfl

theorem output_timerDeadline (now : Nat) (args : List Str) (l : Logger) :
    (output now args l).timerDeadline = l.timerDeadline := rfl

theorem output_buf (now : Nat) (args : List Str) (l : Logger) :
    (output now args l).buf =
      l.buf ++ outputStr ((fmtElapsed (now - l.start)).toList) args := rfl

theorem flush_snd_start (oOk wOk : Bool) (l : Logger) :
    (flush oOk wOk l).2.start = l.start := by
  simp only [flush]
  split <;> rfl

theorem flush_snd_timerDeadline (oOk wOk : Bool) (l : Logger) :
    (flush oOk wOk l).2.timerDeadline = l.timerDeadline := by
  simp only [flush]
  split <;> rfl

/-- One-step unfolding of `Q` when caller info is available, with the two
argument-name cases merged through `argsOf`. -/
theorem Q_some_eq (now : Nat) (ci : CallerInfo) (names : Option (List Str))
    (args : List Str) (oOk wOk : Bool) (l : Logger) :
    Q now (some ci) names args oOk wOk l =
      flush oOk wOk (output now (argsOf names args)
        (if (header ci.funcName ci.file ci.line now l).1 = ""
          then (header ci.funcName ci.file ci.line now l).2
          else { (header ci.funcName ci.file ci.line now l).2 with
            buf := (header ci.funcName ci.file ci.line now l).2.buf ++
              '\n' :: (header ci.funcName ci.file ci.line now l).1.toList ++
                ['\n'] })) := by
  cases names <;> rfl

/-- Claim C6 (confirmed): `resetTimer` reports whether the previous
deadline had elapsed and resets the session baseline `start` to now
exactly when it had — never merely because a call occurred. -/
theorem start_reset_iff_expired (d now : Nat) (l : Logger) :
    (resetTimer d now l).1 = deadlineElapsed now l ∧
    (resetTimer d now l).2.start =
      (if deadlineElapsed now l then now else l.start) :=
  ⟨resetTimer_fst d now l, resetTimer_snd_start d now l⟩

/-- Claim C5 (confirmed): `header` emits a session header if and only if
the previous inactivity deadline had elapsed or the caller's function or
file differs from the stored ones; otherwise no header is emitted and the
elapsed-time baseline `start` is left at its previously stored value. -/
theorem header_emission_iff (fn file : String) (ln now : Nat) (l : Logger) :
    ((header fn file ln now l).1 ≠ "" ↔
      (deadlineElapsed now l = true ∨ fn ≠ l.lastFunc ∨ file ≠ l.lastFile)) ∧
    ((header fn file ln now l).1 = "" →
      (header fn file ln now l).2.start = l.start) := by
  constructor
  · exact header_ne_empty_iff fn file ln now l
  · intro hempty
    rw [header_snd_start, header_empty_not_expired fn file ln now l hempty]
    rfl

/-- Witness for `header_emission_iff` on the first call after process
start. -/
theorem header_emission_iff_witness :
    (((header ("f") ("a.go") 10 0 initLogger).1 ≠ "" ↔
      (deadlineElapsed 0 initLogger = true ∨ "f" ≠ initLogger.lastFunc ∨
        "a.go" ≠ initLogger.lastFile)) ∧
    ((header ("f") ("a.go") 10 0 initLogger).1 = "" →
      (header ("f") ("a.go") 10 0 initLogger).2.start = initLogger.start)) :=
  header_emission_iff ("f") ("a.go") 10 0 initLogger

/-- Claim C1 counterexample: two calls 1 second apart, same file but
different functions ("f" then "g").  The second call emits a header, yet
the baseline `start` stays 0 instead of being reset to the call time
1000ms, so its elapsed timestamp is `1.000s`, not near `0.000s`. -/
theorem header_change_without_reset_cex :
    (header ("g") ("a.go") 20 1000
        (header ("f") ("a.go") 10 0 initLogger).2).1 ≠ "" ∧
    (header ("g") ("a.go") 20 1000
        (header ("f") ("a.go") 10 0 initLogger).2).2.start ≠ 1000 ∧
    fmtElapsed (1000 - (header ("g") ("a.go") 20 1000
        (header ("f") ("a.go") 10 0 initLogger).2).2.start) = "1.000s" := by
  decide

/-- Claim C1 (amended): whenever header emission is triggered — the
deadline elapsed, or the calling function or file changed — a header is
emitted; the elapsed baseline `start` is reset to now exactly when the
deadline had elapsed, and is left unchanged when the header is due only to
a function/file change within the 2-second window. -/
theorem header_emission_start_reset (fn file : String) (ln now : Nat)
    (l : Logger)
    (h : deadlineElapsed now l = true ∨ fn ≠ l.lastFunc ∨ file ≠ l.lastFile) :
    (header fn file ln now l).1 ≠ "" ∧
    (header fn file ln now l).2.start =
      (if deadlineElapsed now l then now else l.start) :=
  ⟨(header_ne_empty_iff fn file ln now l).mpr h, header_snd_start fn file ln now l⟩

/-- Witness for `header_emission_start_reset` on the first call after
process start. -/
theorem header_emission_start_reset_witness :
    (deadlineElapsed 1000 initLogger = true ∨ "g" ≠ initLogger.lastFunc ∨
      "a.go" ≠ initLogger.lastFile) ∧
    ((header ("g") ("a.go") 20 1000 initLogger).1 ≠ "" ∧
      (header ("g") ("a.go") 20 1000 initLogger).2.start =
        (if deadlineElapsed 1000 initLogger then 1000 else initLogger.start)) :=
  ⟨Or.inl (by decide),
    header_emission_start_reset ("g") ("a.go") 20 1000 initLogger
      (Or.inl (by decide))⟩

/-- Claim C2 counterexample: when opening the log file fails, `flush`
returns the error before clearing the buffer, so after a completed call
the shared buffer still holds the call's bytes. -/
theorem flush_open_failure_keeps_buffer_cex :
    (Q 0 none none [['x']] false true initLogger).2.buf ≠ [] := by
  decide

/-- Claim C2 (amended): after every completed call in which the log file
was opened successfully, the shared buffer is empty — even if the write
itself failed; when opening fails, the buffer keeps exactly the bytes that
a successful open would have written (they are not discarded). -/
theorem flush_clears_buffer_on_open_success (now : Nat)
    (callerInfo : Option CallerInfo) (names : Option (List Str))
    (args : List Str) (writeOk : Bool) (l : Logger) :
    (Q now callerInfo names args true writeOk l).2.buf = [] ∧
    (Q now callerInfo names args false writeOk l).2.buf =
      (Q now callerInfo names args true writeOk l).1.written := by
  cases callerInfo <;> cases names <;> exact ⟨rfl, rfl⟩

/-- Claim C3 counterexample: a call whose caller info is unobtainable
leaves the inactivity deadline untouched: with a stored deadline of
10000ms, a call at time 0 does not reset it to 0 + 2000ms. -/
theorem deadline_not_reset_without_caller_cex :
    (Q 0 none none [] true true
        { initLogger with timerDeadline := some 10000 }).2.timerDeadline =
      some 10000 ∧
    (Q 0 none none [] true true
        { initLogger with timerDeadline := some 10000 }).2.timerDeadline ≠
      some 2000 := by
  decide

/-- Claim C3 (amended): on every call for which caller info is obtainable,
the inactivity deadline is reset to now + 2 seconds and whether the
previous deadline had already elapsed is recorded in the baseline (`start`
becomes now exactly when it had elapsed); on a call whose caller info is
unobtainable the timer state is not touched. -/
theorem deadline_reset_on_caller_info (now : Nat) (ci : CallerInfo)
    (names : Option (List Str)) (args : List Str) (openOk writeOk : Bool)
    (l : Logger) :
    (Q now (some ci) names args openOk writeOk l).2.timerDeadline =
      some (now + 2000) ∧
    (Q now (some ci) names args openOk writeOk l).2.start =
      (if deadlineElapsed now l then now else l.start) ∧
    (Q now none names args openOk writeOk l).2.timerDeadline =
      l.timerDeadline := by
  refine ⟨?_, ?_, ?_⟩
  · rw [Q_some_eq, flush_snd_timerDeadline, output_timerDeadline]
    split <;> simp [header_snd_timerDeadline]
  · rw [Q_some_eq, flush_snd_start, output_start]
    split <;> simp [header_snd_start]
  · cases names <;>
      simp only [Q, flush_snd_timerDeadline, output_timerDeadline]

/-- Claim C7 (confirmed): when argument-name recovery fails (`argNames`
returns an error), the call still appends a complete log block containing
the bare rendered values — the block composed from `args` without
`name=` prefixes is a suffix of the bytes written to the log file, and the
written bytes are nonempty — and no failure is surfaced: with working file
I/O the flush reports no error. -/
theorem argnames_failure_still_logs (now : Nat) (ci : CallerInfo)
    (args : List Str) (l : Logger) :
    (Q now (some ci) none args true true l).1.err = false ∧
    outputStr ((fmtElapsed (now -
        (Q now (some ci) none args true true l).2.start)).toList) args <:+
      (Q now (some ci) none args true true l).1.written ∧
    (Q now (some ci) none args true true l).1.written ≠ [] := by
  have hQ := Q_some_eq now ci none args true true l
  set hd := header ci.funcName ci.file ci.line now l with hhd
  set l1 := if hd.1 = "" then hd.2
    else { hd.2 with buf := hd.2.buf ++ '\n' :: hd.1.toList ++ ['\n'] } with hl1
  have hargs : argsOf none args = args := rfl
  rw [hargs] at hQ
  have herr : (flush true true (output now args l1)).1.err = false := rfl
  have hwr : (flush true true (output now args l1)).1.written =
      l1.buf ++ outputStr ((fmtElapsed (now - l1.start)).toList) args := rfl
  have hst : (flush true true (output now args l1)).2.start = l1.start := rfl
  refine ⟨?_, ?_, ?_⟩
  · rw [hQ]; exact herr
  · rw [hQ, hst, hwr]
    exact List.suffix_append _ _
  · rw [hQ, hwr]
    intro hcontra
    rw [List.append_eq_nil] at hcontra
    have h9 : outputStr ((fmtElapsed (now - l1.start)).toList) args ≠ [] := by
      intro h10
      have h11 : ((args.foldl
          (outputStep
            (List.replicate ((fmtElapsed (now - l1.start)).toList.length + 1) ' ')
            ((fmtElapsed (now - l1.start)).toList.length + 1))
          { buf := (fmtElapsed (now - l1.start)).toList ++ [' '], lineArgs := 0,
            lineWidth := (fmtElapsed (now - l1.start)).toList.length + 1,
            padding := [] }).buf ++ ['\n'] : Str) = [] := h10
      rw [List.append_eq_nil] at h11
      exact List.cons_ne_nil _ _ h11.2
    exact h9 hcontra.2

/-- Claim C10 (confirmed): on the very first call after process start with
caller info obtainable, a header is always emitted (`init` leaves the
timer stopped, so `resetTimer` reports it as expired on first use), the
elapsed baseline `start` is set to now before the timestamp is computed,
and the bytes written are exactly the header block followed by the output
block stamped with `fmtElapsed 0` — the timestamp is never computed from
the zero time. -/
theorem first_call_emits_header (now : Nat) (ci : CallerInfo)
    (names : Option (List Str)) (args : List Str) :
    (Q now (some ci) names args true true initLogger).2.start = now ∧
    (header ci.funcName ci.file ci.line now initLogger).1 =
      mkHeader now ci.file ci.line ci.funcName ∧
    mkHeader now ci.file ci.line ci.funcName ≠ "" ∧
    (Q now (some ci) names args true true initLogger).1.written =
      '\n' :: (mkHeader now ci.file ci.line ci.funcName).toList ++ '\n' ::
        outputStr ((fmtElapsed 0).toList) (argsOf names args) := by
  have hhd : header ci.funcName ci.file ci.line now initLogger =
      (mkHeader now ci.file ci.line ci.funcName,
        { buf := [], start := now, timerDeadline := some (now + 2000),
          lastFile := ci.file, lastFunc := ci.funcName }) := rfl
  have hne := mkHeader_ne_empty now ci.file ci.line ci.funcName
  have hQ := Q_some_eq now ci names args true true initLogger
  rw [hhd, if_neg hne] at hQ
  refine ⟨?_, by rw [hhd], hne, ?_⟩
  · rw [hQ]
    rfl
  · rw [hQ]
    show ([] : Str) ++ '\n' ::
        (mkHeader now ci.file ci.line ci.funcName).toList ++ ['\n'] ++
        outputStr ((fmtElapsed (now - now)).toList) (argsOf names args) = _
    rw [Nat.sub_self]
    simp [List.append_assoc]

end QSpec
